import Mathlib

/-!
# Verification of the BitNet MNIST fixed-point export pipeline

Shallow embedding of the quantization / shift-calibration / weight-packing
logic of `src/python/train_mnist.py`, together with proofs of the spec's
claims about it.

Conventions of the embedding:

* Activation vectors and weight matrices are `List Int` / `List (List Int)`
  (row-major).  The Python code holds them as numpy `int8` / `int32`
  arrays; all values involved stay far inside those ranges, and where the
  32-bit width matters (the accumulator claims) we model the wraparound
  explicitly (`wrap32`, `dot_i32`).
* Python's `>>` on a signed integer is an arithmetic right shift, i.e.
  floor division by a power of two; on Lean `Int` the `/` operator is
  Euclidean division, which coincides with floor division for a positive
  divisor, so `ashr x s = x / 2 ^ s` is an exact model.
* Real-valued weights (the quantizer's input) are modelled as `ℚ`; the
  quantizer's arithmetic (mean, divide, clamp, round-half-to-even) is
  exact rational arithmetic, matching the spec's real-number description
  of the algorithm.
-/

namespace BitNet

/-- The body of the `while (max_val >> shift) > 127` loop of
`find_shift_for_max` (train_mnist.py, lines 166-173), written as structural
recursion on a fuel argument so that it is kernel-computable.  One loop
iteration (`shift += 1`) becomes one recursive call on `m / 2`, using
`m >> (s+1) = (m/2) >> s`.  Fuel `m` always suffices because the loop runs
at most `log2 m + 1 ≤ m` times for `m ≥ 1`. -/
def shift_loop : Nat → Nat → Nat
  | 0, _ => 0
  | fuel + 1, m => if 127 < m then shift_loop fuel (m / 2) + 1 else 0

/-- Embeds `find_shift_for_max` (train_mnist.py, lines 166-173): the minimum shift
so that `max_val >> shift` fits in `[-128, 127]`; returns 0 for input 0. -/
def find_shift_for_max (max_val : Nat) : Nat :=
  if max_val = 0 then 0 else shift_loop max_val max_val

/-! ## FixedPointEngine: exact integer forward pass (train_mnist.py,
`calibrate_shift` lines 131-156 and `verify_int8_inference` lines 377-394) -/

/-- Exact integer dot product of a weight row and an activation vector,
the per-row accumulator `w @ a` of the numpy `int32` matmul. -/
def dot : List Int → List Int → Int
  | [], _ => 0
  | _ :: _, [] => 0
  | w :: ws, x :: xs => w * x + dot ws xs

/-- One matrix-vector product: the per-row accumulator vector
`w.astype(np.int32) @ a.astype(np.int32)`. -/
def matVec (w : List (List Int)) (a : List Int) : List Int :=
  w.map (fun row => dot row a)

/-- Arithmetic right shift on a signed integer (`acc >> s` in
Python/numpy): floor division by `2 ^ s`.  Lean's `/` on `Int` is
Euclidean division, which is floor division for the positive divisor
`2 ^ s`. -/
def ashr (x : Int) (s : Nat) : Int :=
  x / (2 : Int) ^ s

/-- Model of `np.clip(x, lo, hi)` on integers. -/
def clip (x lo hi : Int) : Int :=
  min (max x lo) hi

/-- A hidden layer's output in the integer pipeline:
`np.maximum((acc >> s).clip(-128, 127), 0)` applied to each row
accumulator (shift, clamp to int8 range, rectify). -/
def layerOut (w : List (List Int)) (s : Nat) (a : List Int) : List Int :=
  (matVec w a).map (fun acc => max (clip (ashr acc s) (-128) 127) 0)

/-! ## ShiftCalibrator (`calibrate_shift`, train_mnist.py lines 107-163) -/

/-- Model of `np.max(np.abs(acc))` over one sample's accumulator vector (0 for an
empty vector, matching the Python running maximum's initial value). -/
def sampleMax (l : List Int) : Nat :=
  l.foldl (fun m x => max m x.natAbs) 0

/-- The running maximum `max_acc = max(max_acc, np.max(np.abs(acc)))` of a
calibration pass, folded over the whole sample list: `f` computes the
current layer's accumulator vector for one sample. -/
def datasetMax (f : List Int → List Int) (inputs : List (List Int)) : Nat :=
  inputs.foldl (fun m a => max m (sampleMax (f a))) 0

/-- Embeds `collect_int8_inputs` (train_mnist.py lines 119-127): concatenates the
loader's batches of int8 activation vectors into one sample list.
`np.concatenate` raises `ValueError` when handed an empty list of arrays,
which is the only failure path; it is modelled as `none`.  The upstream
float-to-int8 input quantization (`(x * 127).clip(-128, 127)`) happens
before the vectors enter this model. -/
def collect_int8_inputs (batches : List (List (List Int))) : Option (List (List Int)) :=
  if batches.isEmpty then none else some batches.flatten

/-- Embeds `calibrate_shift` (train_mnist.py lines 107-163): three sequential
calibration passes.  Pass `i` replays layers `1..i-1` under their already
fixed shifts, folds the running maximum accumulator magnitude of layer `i`
over every sample, and derives that layer's shift with
`find_shift_for_max`. -/
def calibrate_shift (w1 w2 w3 : List (List Int)) (batches : List (List (List Int))) :
    Option (Nat × Nat × Nat) :=
  match collect_int8_inputs batches with
  | none => none
  | some all_inputs =>
    let s1 := find_shift_for_max (datasetMax (fun a => matVec w1 a) all_inputs)
    let s2 := find_shift_for_max
      (datasetMax (fun a => matVec w2 (layerOut w1 s1 a)) all_inputs)
    let s3 := find_shift_for_max
      (datasetMax (fun a => matVec w3 (layerOut w2 s2 (layerOut w1 s1 a))) all_inputs)
    some (s1, s2, s3)

/-! ## 32-bit accumulator model and the final-layer prediction
(`verify_int8_inference`, train_mnist.py lines 363-400) -/

/-- Two's-complement wraparound to a signed 32-bit integer: the value an
`np.int32` cell holds after storing `x`. -/
def wrap32 (x : Int) : Int :=
  (x + 2 ^ 31) % 2 ^ 32 - 2 ^ 31

/-- The dot product as the numpy `int32` matmul computes it: every
multiply-accumulate step lives in a 32-bit register, so each partial sum
is wrapped to 32 bits. -/
def dot_i32 : List Int → List Int → Int
  | [], _ => 0
  | _ :: _, [] => 0
  | w :: ws, x :: xs => wrap32 (w * x + dot_i32 ws xs)

/-- Accumulator walk of `np.argmax`: index of the first maximal element
(numpy keeps the earliest index on ties, hence the strict comparison). -/
def np_argmax_go : List Int → Nat → Nat → Int → Nat
  | [], _, best, _ => best
  | x :: xs, i, best, bv =>
    if bv < x then np_argmax_go xs (i + 1) i x
    else np_argmax_go xs (i + 1) best bv

/-- Model of `np.argmax` over a score vector (an empty vector is a numpy
`ValueError`; the interface below is only used at width 10). -/
def np_argmax : List Int → Nat
  | [] => 0
  | x :: xs => np_argmax_go xs 1 0 x

/-- The final layer of `verify_int8_inference` (lines 391-392):
`out3 = (acc3 >> shifts[2]).clip(-128, 127)` — shifted and clamped,
with no rectification. -/
def int8_scores (w3 : List (List Int)) (s3 : Nat) (v : List Int) : List Int :=
  (matVec w3 v).map (fun acc => clip (ashr acc s3) (-128) 127)

/-- One sample's predicted class in `verify_int8_inference` (lines
377-394): two rectified hidden layers, then `np.argmax` of the final
layer's shifted-and-clamped score vector. -/
def int8_pred (w1 w2 w3 : List (List Int)) (s1 s2 s3 : Nat) (a : List Int) : Nat :=
  np_argmax (int8_scores w3 s3 (layerOut w2 s2 (layerOut w1 s1 a)))

/-- The 2×2 layer-1 weights of the C5 counterexample instance. -/
def cW1 : List (List Int) := [[1, 0], [0, 1]]

/-- The 3×2 layer-2 weights of the C5 counterexample instance. -/
def cW2 : List (List Int) := [[1, 0], [1, 0], [0, 1]]

/-- The 2×3 layer-3 weights of the C5 counterexample instance. -/
def cW3 : List (List Int) := [[1, 1, 0], [1, 1, 1]]

/-- The single calibration/inference sample of the C5 counterexample. -/
def cSample : List Int := [127, 1]

/-! ## WeightPacker (`export_weights_header`, train_mnist.py lines
214-245): 2-bit tiled packing of a ternary matrix.

A row is cut into tiles of 128 columns; each tile becomes 8 32-bit words.
Position `i` within a tile goes to word `i / 16` at bit offset
`(i % 16) * 2`, so the word with flat index `j = tile * 8 + i / 16` packs
exactly the columns `16 * j + t`, `t < 16`, with column `16 * j + t` at
bit offset `2 * t`.  The source builds each word by OR-ing `enc << 2*t`
for the 16 disjoint 2-bit fields; since every `enc < 4`, OR-ing disjoint
fields is exactly base-4 digit composition `Σ enc_t · 4^t`, which is how
`wordOfEncs` states it. -/

/-- The 2-bit encoding table: `+1 → 01`, `-1 → 10`, everything else
(weight 0) `→ 00`. -/
def encodeWeight (v : Int) : Nat :=
  if v = 1 then 1 else if v = -1 then 2 else 0

/-- The inverse of the encoding table: `01 → +1`, `10 → -1`, `00 → 0`
(the reserved field `11` also reads as 0; it is never produced). -/
def decodeWeight (e : Nat) : Int :=
  if e = 1 then 1 else if e = 2 then -1 else 0

/-- Compose a word from its 2-bit fields, least significant first:
`wordOfEncs [e₀, …, e₁₅] = Σ eₜ · 4^t = Σ eₜ << 2t`. -/
def wordOfEncs : List Nat → Nat
  | [] => 0
  | e :: rest => e + 4 * wordOfEncs rest

/-- Split a word back into its `n` 2-bit fields, least significant
first. -/
def encsOfWord : Nat → Nat → List Nat
  | 0, _ => []
  | n + 1, wd => wd % 4 :: encsOfWord n (wd / 4)

/-- Embeds `tiles_per_row = (k + 127) // 128` (line 216): number of 128-column
tiles per row, the last one zero-padded when `k % 128 ≠ 0`. -/
def tiles_per_row (k : Nat) : Nat :=
  (k + 127) / 128

/-- Word `j` of a row's packed stream: the columns `16*j + t`, `t < 16`,
encoded 2 bits each (`val = w[row, col] if col < k else 0`, line 228). -/
def packWord (row : List Int) (k j : Nat) : Nat :=
  wordOfEncs ((List.range 16).map (fun t =>
    encodeWeight (if 16 * j + t < k then row.getD (16 * j + t) 0 else 0)))

/-- One row's packed words, tile-major: `tiles_per_row k * 8` words. -/
def packRow (row : List Int) (k : Nat) : List Nat :=
  (List.range (tiles_per_row k * 8)).map (packWord row k)

/-- The packed stream of one weight matrix, rows emitted in row-major,
tile-major order (the `word_list` of lines 222-236). -/
def export_packed (w : List (List Int)) (k : Nat) : List Nat :=
  (w.map (fun row => packRow row k)).flatten

/-- Decode one row: split every word into its 16 2-bit fields, map the
fields through the inverse encoding table, and truncate the padded tail
to the row's `k` real columns. -/
def unpackRow (words : List Nat) (k : Nat) : List Int :=
  ((words.map (fun wd => (encsOfWord 16 wd).map decodeWeight)).flatten).take k

/-- Decode a packed stream back into an `m × k` matrix: each row owns
`tiles_per_row k * 8` consecutive words. -/
def unpack_packed (stream : List Nat) (m k : Nat) : List (List Int) :=
  (List.range m).map (fun r =>
    unpackRow ((stream.drop (r * (tiles_per_row k * 8))).take
      (tiles_per_row k * 8)) k)

/-! ## Quantizer (`TernaryQuantize.forward`, train_mnist.py lines 23-40).

The Python weights are float tensors; the algorithm — mean absolute
value, divide, clamp to `[-1, 1]`, round — is modelled in exact rational
arithmetic, matching the spec's real-number description.  `torch.round`
rounds half to even. -/

/-- Round to the nearest integer, ties to the even neighbor
(`torch.round`'s rounding rule). -/
def roundTiesEven (x : ℚ) : ℤ :=
  if x - ⌊x⌋ < 1 / 2 then ⌊x⌋
  else if 1 / 2 < x - ⌊x⌋ then ⌊x⌋ + 1
  else if Even ⌊x⌋ then ⌊x⌋ else ⌊x⌋ + 1

/-- Model of `torch.clamp(x, lo, hi)` on rationals. -/
def clampQ (x lo hi : ℚ) : ℚ :=
  min (max x lo) hi

/-- Sum of the absolute values of all matrix entries. -/
def absSum (w : List (List ℚ)) : ℚ :=
  (w.map (fun r => (r.map abs).sum)).sum

/-- Number of matrix entries. -/
def numel (w : List (List ℚ)) : Nat :=
  (w.map List.length).sum

/-- Embeds `alpha = w.abs().mean()` (line 28): mean absolute value over all
entries. -/
def alphaOf (w : List (List ℚ)) : ℚ :=
  absSum w / (numel w : ℚ)

/-- Model of `torch.zeros_like(w)`: the all-zero matrix of the same shape. -/
def zerosLike (w : List (List ℚ)) : List (List ℚ) :=
  w.map (fun r => r.map (fun _ => (0 : ℚ)))

/-- Embeds `TernaryQuantize.forward` (lines 27-32): if `alpha = 0` return the
all-zero matrix, otherwise round-half-to-even the elementwise
`clamp(w / alpha, -1, 1)`. -/
def TernaryQuantize.forward (w : List (List ℚ)) : List (List ℚ) :=
  let alpha := alphaOf w
  if alpha = 0 then zerosLike w
  else w.map (fun r => r.map (fun x =>
    ((roundTiesEven (clampQ (x / alpha) (-1) 1) : ℤ) : ℚ)))

theorem shift_loop_le (fuel : Nat) :
    ∀ m : Nat, m ≤ 2 ^ fuel → m / 2 ^ shift_loop fuel m ≤ 127 := by
  induction fuel with
  | zero =>
    intro m hm
    simp only [shift_loop, pow_zero, Nat.div_one]
    omega
  | succ f ih =>
    intro m hm
    simp only [shift_loop]
    split
    · have h2 : m / 2 ≤ 2 ^ f := by
        have : 2 ^ (f + 1) = 2 ^ f * 2 := pow_succ 2 f
        omega
      have := ih (m / 2) h2
      have hdd : m / 2 / 2 ^ shift_loop f (m / 2) = m / 2 ^ (shift_loop f (m / 2) + 1) := by
        rw [Nat.div_div_eq_div_mul, pow_succ, mul_comm (2 ^ shift_loop f (m / 2)) 2]
      rw [hdd] at this
      exact this
    · simp only [pow_zero, Nat.div_one]
      omega

theorem shift_loop_min (fuel : Nat) :
    ∀ m : Nat, 0 < shift_loop fuel m →
      127 < m / 2 ^ (shift_loop fuel m - 1) := by
  induction fuel with
  | zero =>
    intro m h
    simp [shift_loop] at h
  | succ f ih =>
    intro m h
    simp only [shift_loop] at h ⊢
    split
    · rename_i hm
      simp only [Nat.add_sub_cancel]
      rcases Nat.eq_zero_or_pos (shift_loop f (m / 2)) with hz | hp
      · rw [hz]
        simpa using hm
      · have := ih (m / 2) hp
        have hdd : m / 2 / 2 ^ (shift_loop f (m / 2) - 1) =
            m / 2 ^ (shift_loop f (m / 2) - 1 + 1) := by
          rw [Nat.div_div_eq_div_mul, pow_succ,
            mul_comm (2 ^ (shift_loop f (m / 2) - 1)) 2]
        rw [hdd] at this
        have hs : shift_loop f (m / 2) - 1 + 1 = shift_loop f (m / 2) := by omega
        rw [hs] at this
        exact this
    · rename_i hm
      split at h
      · omega
      · omega

/-- The chosen shift always satisfies the loop's exit condition:
`m / 2 ^ find_shift_for_max m ≤ 127`. -/
theorem find_shift_le (m : Nat) : m / 2 ^ find_shift_for_max m ≤ 127 := by
  unfold find_shift_for_max
  split
  · rename_i h
    subst h
    simp
  · exact shift_loop_le m m (Nat.le_of_lt (Nat.lt_two_pow m))

/-- When the chosen shift is positive, one shift less would overflow:
`127 < m / 2 ^ (find_shift_for_max m - 1)`. -/
theorem find_shift_min (m : Nat) (hp : 0 < find_shift_for_max m) :
    127 < m / 2 ^ (find_shift_for_max m - 1) := by
  unfold find_shift_for_max at hp ⊢
  split at hp
  · omega
  · rename_i h
    rw [if_neg h]
    exact shift_loop_min m m hp

/-- C1 — Shift minimality: for every non-negative maximum accumulator
magnitude `m`, the shift `s` returned by `find_shift_for_max` satisfies
`(m >>> s) ≤ 127`; whenever `s > 0` also `(m >>> (s-1)) > 127`; and `s = 0`
whenever `m = 0`. -/
theorem find_shift_for_max_minimal (m : Nat) :
    m >>> find_shift_for_max m ≤ 127 ∧
    (0 < find_shift_for_max m → 127 < m >>> (find_shift_for_max m - 1)) ∧
    (m = 0 → find_shift_for_max m = 0) := by
  simp only [Nat.shiftRight_eq_div_pow]
  refine ⟨find_shift_le m, find_shift_min m, fun hz => ?_⟩
  subst hz
  rfl

/-- Witness for C1 at the spec's own worked example `m = 500`
(scenario 3: minimal shift is 2). -/
theorem find_shift_for_max_minimal_witness :
    500 >>> find_shift_for_max 500 ≤ 127 ∧
    127 < 500 >>> (find_shift_for_max 500 - 1) ∧
    find_shift_for_max 500 = 2 := by
  have h := find_shift_for_max_minimal 500
  exact ⟨h.1, h.2.1 (by decide), by decide⟩

/-- C10 — Termination of the shift search: the loop's shifted value
strictly decreases (`m >>> 1 < m` whenever the loop guard `127 < m`
holds), and the shift actually returned by `find_shift_for_max`
satisfies the loop's exit condition, so a valid shift is always
reached. -/
theorem find_shift_for_max_terminates (m : Nat) :
    (127 < m → m >>> 1 < m) ∧ m >>> find_shift_for_max m ≤ 127 := by
  constructor
  · intro hm
    simp only [Nat.shiftRight_eq_div_pow, pow_one]
    omega
  · rw [Nat.shiftRight_eq_div_pow]
    exact find_shift_le m

/-- Witness for C10 at `m = 500`. -/
theorem find_shift_for_max_terminates_witness :
    500 >>> (1 : Nat) < 500 ∧ 500 >>> find_shift_for_max 500 ≤ 127 :=
  ⟨(find_shift_for_max_terminates 500).1 (by decide),
   (find_shift_for_max_terminates 500).2⟩

/-! ## The running-maximum reduction -/

theorem le_foldl_max {α : Type} (g : α → Nat) :
    ∀ (l : List α) (b : Nat), b ≤ l.foldl (fun m x => max m (g x)) b := by
  intro l
  induction l with
  | nil => intro b; exact Nat.le_refl b
  | cons x xs ih =>
    intro b
    simp only [List.foldl_cons]
    exact le_trans (Nat.le_max_left b (g x)) (ih (max b (g x)))

theorem mem_le_foldl_max {α : Type} (g : α → Nat) :
    ∀ (l : List α) (b : Nat) (x : α), x ∈ l →
      g x ≤ l.foldl (fun m y => max m (g y)) b := by
  intro l
  induction l with
  | nil => intro b x hx; exact absurd hx (List.not_mem_nil x)
  | cons y ys ih =>
    intro b x hx
    simp only [List.foldl_cons]
    rcases List.mem_cons.mp hx with h | h
    · subst h
      exact le_trans (Nat.le_max_right b (g x)) (le_foldl_max g ys (max b (g x)))
    · exact ih (max b (g y)) x h

/-- The running maximum is invariant under reordering of the list: `max`
over absolute values is an order-independent reduction. -/
theorem foldl_max_perm {α : Type} (g : α → Nat) {l1 l2 : List α}
    (h : l1.Perm l2) :
    ∀ b : Nat, l1.foldl (fun m x => max m (g x)) b =
      l2.foldl (fun m x => max m (g x)) b := by
  induction h with
  | nil => intro b; rfl
  | cons x _ ih =>
    intro b
    simp only [List.foldl_cons]
    exact ih (max b (g x))
  | swap x y l =>
    intro b
    simp only [List.foldl_cons]
    have hswap : max (max b (g y)) (g x) = max (max b (g x)) (g y) := by omega
    rw [hswap]
  | trans _ _ ih1 ih2 =>
    intro b
    rw [ih1 b, ih2 b]

/-! ## The shifted-accumulator range invariant -/

/-- Core range fact: if `|acc| ≤ m` and the chosen shift `s` brings `m`
down to at most 127, then the arithmetically shifted accumulator — also a
negative one — lies in the signed 8-bit range `[-128, 127]`. -/
theorem ashr_in_range (acc : Int) (m s : Nat) (hm : acc.natAbs ≤ m)
    (hs : m / 2 ^ s ≤ 127) : -128 ≤ ashr acc s ∧ ashr acc s ≤ 127 := by
  have hcN : 0 < 2 ^ s := Nat.pos_pow_of_pos s (by omega)
  have hcI : (0 : Int) < (2 : Int) ^ s := by positivity
  have hcast : ((2 : Int) ^ s) = ((2 ^ s : Nat) : Int) := by push_cast; ring
  constructor
  · rw [ashr, Int.le_ediv_iff_mul_le hcI]
    have hmlt : m < 128 * 2 ^ s := (Nat.div_lt_iff_lt_mul hcN).mp (by omega)
    rw [hcast]
    omega
  · have h1 : acc ≤ (m : Int) := by omega
    have h2 : acc / (2 : Int) ^ s ≤ (m : Int) / (2 : Int) ^ s :=
      Int.ediv_le_ediv hcI h1
    have h3 : (m : Int) / (2 : Int) ^ s = ((m / 2 ^ s : Nat) : Int) := by
      rw [Int.ofNat_ediv, hcast]
    rw [ashr]
    rw [h3] at h2
    omega

/-- Any accumulator of a calibrated pass, shifted by the shift derived
from that pass's own running maximum, lands in `[-128, 127]`.  Here `f`
computes the pass's accumulator vector for one sample. -/
theorem calibrated_layer_range (f : List Int → List Int)
    (inputs : List (List Int)) (a : List Int) (ha : a ∈ inputs)
    (acc : Int) (hacc : acc ∈ f a) :
    -128 ≤ ashr acc (find_shift_for_max (datasetMax f inputs)) ∧
    ashr acc (find_shift_for_max (datasetMax f inputs)) ≤ 127 := by
  have h1 : acc.natAbs ≤ sampleMax (f a) := mem_le_foldl_max Int.natAbs (f a) 0 acc hacc
  have h2 : sampleMax (f a) ≤ datasetMax f inputs :=
    mem_le_foldl_max (fun x => sampleMax (f x)) inputs 0 a ha
  exact ashr_in_range acc (datasetMax f inputs) _ (le_trans h1 h2)
    (find_shift_le (datasetMax f inputs))

/-- C2 — Calibrated-shift range invariant: for every layer calibrated by
`calibrate_shift` and every sample of the calibration dataset, every
per-row accumulator of that layer (computed under the already fixed shifts
of the earlier layers), arithmetically right-shifted by that layer's
chosen shift, lies within `[-128, 127]` — negative accumulators
included. -/
theorem calibrate_shift_range (w1 w2 w3 : List (List Int))
    (batches : List (List (List Int))) (s1 s2 s3 : Nat)
    (hcal : calibrate_shift w1 w2 w3 batches = some (s1, s2, s3))
    (a : List Int) (ha : a ∈ batches.flatten) :
    (∀ acc ∈ matVec w1 a, -128 ≤ ashr acc s1 ∧ ashr acc s1 ≤ 127) ∧
    (∀ acc ∈ matVec w2 (layerOut w1 s1 a),
      -128 ≤ ashr acc s2 ∧ ashr acc s2 ≤ 127) ∧
    (∀ acc ∈ matVec w3 (layerOut w2 s2 (layerOut w1 s1 a)),
      -128 ≤ ashr acc s3 ∧ ashr acc s3 ≤ 127) := by
  unfold calibrate_shift collect_int8_inputs at hcal
  by_cases hb : batches.isEmpty
  · simp [hb] at hcal
  · simp only [hb, Bool.false_eq_true, if_false, Option.some.injEq,
      Prod.mk.injEq] at hcal
    obtain ⟨h1, h2, h3⟩ := hcal
    subst h1
    subst h2
    subst h3
    exact ⟨fun acc hacc => calibrated_layer_range _ batches.flatten a ha acc hacc,
      fun acc hacc => calibrated_layer_range _ batches.flatten a ha acc hacc,
      fun acc hacc => calibrated_layer_range _ batches.flatten a ha acc hacc⟩

/-- Witness for C2 on a one-sample dataset with 1×1 weights. -/
theorem calibrate_shift_range_witness :
    (∀ acc ∈ matVec [[1]] [5], -128 ≤ ashr acc 0 ∧ ashr acc 0 ≤ 127) ∧
    (∀ acc ∈ matVec [[1]] (layerOut [[1]] 0 [5]),
      -128 ≤ ashr acc 0 ∧ ashr acc 0 ≤ 127) ∧
    (∀ acc ∈ matVec [[1]] (layerOut [[1]] 0 (layerOut [[1]] 0 [5])),
      -128 ≤ ashr acc 0 ∧ ashr acc 0 ≤ 127) :=
  calibrate_shift_range [[1]] [[1]] [[1]] [[[5]]] 0 0 0 (by decide) [5] (by decide)

/-- C6 — Empty calibration set fails fast: invoked on a dataset with zero
samples (so, since a data loader only yields nonempty batches, with zero
batches), `calibrate_shift` aborts inside `collect_int8_inputs` — the
`np.concatenate` of an empty list raises `ValueError` — before any shift
is derived; it never returns shifts of 0 from the empty reduction. -/
theorem calibrate_shift_empty (w1 w2 w3 : List (List Int))
    (batches : List (List (List Int)))
    (hne : ∀ b ∈ batches, b ≠ []) (hzero : batches.flatten = []) :
    calibrate_shift w1 w2 w3 batches = none := by
  have hb : batches = [] := by
    cases batches with
    | nil => rfl
    | cons b bs =>
      simp only [List.flatten_cons, List.append_eq_nil] at hzero
      exact absurd hzero.1 (hne b (List.mem_cons_self b bs))
  subst hb
  rfl

/-- Witness for C6: the literally empty dataset. -/
theorem calibrate_shift_empty_witness :
    calibrate_shift [[1]] [[1]] [[1]] [] = none :=
  calibrate_shift_empty [[1]] [[1]] [[1]] [] (by decide) rfl

/-- C7 — Calibration determinism under reordering: two calibration
datasets holding the same samples in any order (and identical ternary
weights) produce identical shifts for all three layers; the per-pass
maximum-of-absolute-values reduction is order-independent. -/
theorem calibrate_shift_perm (w1 w2 w3 : List (List Int))
    (b1 b2 : List (List (List Int))) (h1 : b1 ≠ []) (h2 : b2 ≠ [])
    (hperm : b1.flatten.Perm b2.flatten) :
    calibrate_shift w1 w2 w3 b1 = calibrate_shift w1 w2 w3 b2 := by
  have key : ∀ f : List Int → List Int,
      datasetMax f b1.flatten = datasetMax f b2.flatten :=
    fun f => foldl_max_perm (fun x => sampleMax (f x)) hperm 0
  have he1 : b1.isEmpty = false := by simpa [List.isEmpty_iff] using h1
  have he2 : b2.isEmpty = false := by simpa [List.isEmpty_iff] using h2
  unfold calibrate_shift collect_int8_inputs
  simp only [he1, he2, Bool.false_eq_true, if_false, Option.some.injEq, key]

/-- Witness for C7: a two-sample dataset against its reversal. -/
theorem calibrate_shift_perm_witness :
    calibrate_shift [[1]] [[1]] [[1]] [[[3], [100]]] =
    calibrate_shift [[1]] [[1]] [[1]] [[[100]], [[3]]] :=
  calibrate_shift_perm [[1]] [[1]] [[1]] [[[3], [100]]] [[[100]], [[3]]]
    (by decide) (by decide) (by decide)

/-! ## Accumulator exactness and bounds -/

/-- The exact dot product of a ternary row and an int8 vector is bounded
in magnitude by `K·128` (K the activation length; tight, since an
activation may be `-128`). -/
theorem dot_abs_le :
    ∀ (w a : List Int), (∀ x ∈ w, x = -1 ∨ x = 0 ∨ x = 1) →
      (∀ x ∈ a, -128 ≤ x ∧ x ≤ 127) →
      (dot w a).natAbs ≤ a.length * 128 := by
  intro w
  induction w with
  | nil => intro a _ _; simp [dot]
  | cons v ws ih =>
    intro a hw ha
    cases a with
    | nil => simp [dot]
    | cons x xs =>
      simp only [dot, List.length_cons]
      have hv := hw v (List.mem_cons_self v ws)
      have hx := ha x (List.mem_cons_self x xs)
      have hrest := ih xs (fun y hy => hw y (List.mem_cons_of_mem v hy))
        (fun y hy => ha y (List.mem_cons_of_mem x hy))
      rcases hv with h | h | h <;> subst h <;> omega

/-- Storing a value that already fits in 32 signed bits wraps to itself. -/
theorem wrap32_eq_self (x : Int) (h1 : -(2 ^ 31) ≤ x) (h2 : x < 2 ^ 31) :
    wrap32 x = x := by
  unfold wrap32
  rw [Int.emod_eq_of_lt (by omega) (by omega)]
  omega

/-- C8 counterexample: the claim's inputs admit `w = [1]`, `a = [-128]`
(ternary row, activation within `[-128, 127]`, `K = 1 ≤ 784`), where the
dot product's magnitude is `128 > K·127`. -/
theorem dot_bound_counterexample :
    (∀ x ∈ [(1 : Int)], x = -1 ∨ x = 0 ∨ x = 1) ∧
    (∀ x ∈ [(-128 : Int)], -128 ≤ x ∧ x ≤ 127) ∧
    [(-128 : Int)].length ≤ 784 ∧
    dot [(1 : Int)] [(-128 : Int)] = -128 ∧
    ¬ (dot [(1 : Int)] [(-128 : Int)]).natAbs ≤ [(-128 : Int)].length * 127 := by
  decide

/-- C8 (amended) — Accumulator exactness and bound: for every ternary
weight row and every activation vector of length `K ≤ 784` with entries in
`[-128, 127]`, the 32-bit dot product computed by the pipeline equals the
exact mathematical dot product, its magnitude is at most `K·128`
(not `K·127`), and it stays strictly inside the signed 32-bit range, so no
overflow occurs. -/
theorem dot_i32_exact_and_bounded :
    ∀ (w a : List Int), (∀ x ∈ w, x = -1 ∨ x = 0 ∨ x = 1) →
      (∀ x ∈ a, -128 ≤ x ∧ x ≤ 127) → a.length ≤ 784 →
      dot_i32 w a = dot w a ∧
      (dot w a).natAbs ≤ a.length * 128 ∧
      (dot w a).natAbs < 2 ^ 31 := by
  intro w
  induction w with
  | nil =>
    intro a _ _ _
    refine ⟨rfl, by simp [dot], by simp [dot]⟩
  | cons v ws ih =>
    intro a hw ha hk
    have hbound := dot_abs_le (v :: ws) a hw ha
    have hsmall : (dot (v :: ws) a).natAbs < 2 ^ 31 := by
      have : a.length * 128 ≤ 784 * 128 := by omega
      omega
    refine ⟨?_, hbound, hsmall⟩
    cases a with
    | nil => rfl
    | cons x xs =>
      have hrest := ih xs (fun y hy => hw y (List.mem_cons_of_mem v hy))
        (fun y hy => ha y (List.mem_cons_of_mem x hy))
        (by simp only [List.length_cons] at hk; omega)
      show wrap32 (v * x + dot_i32 ws xs) = dot (v :: ws) (x :: xs)
      rw [hrest.1]
      have : v * x + dot ws xs = dot (v :: ws) (x :: xs) := rfl
      rw [this]
      exact wrap32_eq_self _ (by omega) (by omega)

/-- Witness for C8 (amended) at the spec's scenario 2 row/activation. -/
theorem dot_i32_exact_and_bounded_witness :
    dot_i32 [1, -1, 0, 1] [10, 20, 30, 40] = dot [1, -1, 0, 1] [10, 20, 30, 40] ∧
    (dot [(1 : Int), -1, 0, 1] [10, 20, 30, 40]).natAbs ≤
      [(10 : Int), 20, 30, 40].length * 128 ∧
    (dot [(1 : Int), -1, 0, 1] [10, 20, 30, 40]).natAbs < 2 ^ 31 :=
  dot_i32_exact_and_bounded [1, -1, 0, 1] [10, 20, 30, 40]
    (by decide) (by decide) (by decide)

/-! ## Final-layer prediction -/

/-- C5 counterexample: on this concretely calibrated pipeline the layer-3
shift is 1, the raw final accumulators are `[254, 255]` with arg-max 1,
yet the pipeline shifts and clamps them to `[127, 127]` and predicts
class 0 — so the prediction is not the arg-max of the raw accumulator
vector. -/
theorem final_layer_shift_counterexample :
    calibrate_shift cW1 cW2 cW3 [[cSample]] = some (0, 0, 1) ∧
    matVec cW3 (layerOut cW2 0 (layerOut cW1 0 cSample)) = [254, 255] ∧
    np_argmax (matVec cW3 (layerOut cW2 0 (layerOut cW1 0 cSample))) = 1 ∧
    int8_pred cW1 cW2 cW3 0 0 1 cSample = 0 := by
  decide

/-- C5 (amended) — Final-layer prediction: the predicted class is the
arg-max of the final layer's shifted-and-clamped score vector
`clamp(acc₃ >> s₃, -128, 127)`, with no rectification applied to the final
layer; whenever `s₃ = 0` and every raw final accumulator already lies in
`[-128, 127]`, this coincides with the arg-max of the raw accumulator
vector. -/
theorem int8_pred_amended (w1 w2 w3 : List (List Int)) (s1 s2 s3 : Nat)
    (a : List Int) :
    int8_pred w1 w2 w3 s1 s2 s3 a =
      np_argmax ((matVec w3 (layerOut w2 s2 (layerOut w1 s1 a))).map
        (fun acc => clip (ashr acc s3) (-128) 127)) ∧
    (s3 = 0 →
      (∀ v ∈ matVec w3 (layerOut w2 s2 (layerOut w1 s1 a)),
        -128 ≤ v ∧ v ≤ 127) →
      int8_pred w1 w2 w3 s1 s2 s3 a =
        np_argmax (matVec w3 (layerOut w2 s2 (layerOut w1 s1 a)))) := by
  refine ⟨rfl, fun hs hv => ?_⟩
  subst hs
  unfold int8_pred int8_scores
  have hcl : ∀ v ∈ matVec w3 (layerOut w2 s2 (layerOut w1 s1 a)),
      clip (ashr v 0) (-128) 127 = id v := by
    intro v hvm
    have hb := hv v hvm
    simp only [clip, ashr, pow_zero, Int.ediv_one, id]
    omega
  rw [List.map_congr_left hcl, List.map_id]

/-- Witness for C5 (amended) on a tiny pipeline with zero shifts. -/
theorem int8_pred_amended_witness :
    int8_pred [[1]] [[1]] [[1]] 0 0 0 [5] =
      np_argmax ((matVec [[1]] (layerOut [[1]] 0 (layerOut [[1]] 0 [5]))).map
        (fun acc => clip (ashr acc 0) (-128) 127)) ∧
    int8_pred [[1]] [[1]] [[1]] 0 0 0 [5] =
      np_argmax (matVec [[1]] (layerOut [[1]] 0 (layerOut [[1]] 0 [5]))) :=
  ⟨(int8_pred_amended [[1]] [[1]] [[1]] 0 0 0 [5]).1,
   (int8_pred_amended [[1]] [[1]] [[1]] 0 0 0 [5]).2 rfl (by decide)⟩

/-! ## Pack/unpack round trip and the reserved bit pattern -/

theorem encodeWeight_lt_four (v : Int) : encodeWeight v < 4 := by
  unfold encodeWeight
  split
  · omega
  · split
    · omega
    · omega

theorem encodeWeight_ne_three (v : Int) : encodeWeight v ≠ 3 := by
  unfold encodeWeight
  split
  · omega
  · split
    · omega
    · omega

theorem decode_encode (v : Int) (h : v = -1 ∨ v = 0 ∨ v = 1) :
    decodeWeight (encodeWeight v) = v := by
  rcases h with h | h | h <;> subst h <;> rfl

/-- Splitting a composed word recovers exactly its 2-bit fields. -/
theorem encsOfWord_wordOfEncs :
    ∀ l : List Nat, (∀ e ∈ l, e < 4) →
      encsOfWord l.length (wordOfEncs l) = l := by
  intro l
  induction l with
  | nil => intro _; rfl
  | cons e rest ih =>
    intro h
    have he : e < 4 := h e (List.mem_cons_self e rest)
    simp only [List.length_cons, encsOfWord, wordOfEncs]
    have h1 : (e + 4 * wordOfEncs rest) % 4 = e := by omega
    have h2 : (e + 4 * wordOfEncs rest) / 4 = wordOfEncs rest := by omega
    rw [h1, h2, ih (fun y hy => h y (List.mem_cons_of_mem e hy))]

/-- Variant of `encsOfWord_wordOfEncs` with the field count given explicitly. -/
theorem encsOfWord_wordOfEncs_of_length (n : Nat) (l : List Nat)
    (hn : l.length = n) (h4 : ∀ e ∈ l, e < 4) :
    encsOfWord n (wordOfEncs l) = l := by
  subst hn
  exact encsOfWord_wordOfEncs l h4

/-- A word composed of `n` 2-bit fields fits in `2n` bits. -/
theorem wordOfEncs_lt :
    ∀ l : List Nat, (∀ e ∈ l, e < 4) → wordOfEncs l < 4 ^ l.length := by
  intro l
  induction l with
  | nil => intro _; simp [wordOfEncs]
  | cons e rest ih =>
    intro h
    have he : e < 4 := h e (List.mem_cons_self e rest)
    have hr := ih (fun y hy => h y (List.mem_cons_of_mem e hy))
    simp only [wordOfEncs, List.length_cons]
    have hp : 4 ^ (rest.length + 1) = 4 ^ rest.length * 4 := pow_succ 4 rest.length
    omega

/-- The 2-bit field of a composed word at offset `2t` (extracted as
`wd / 4^t % 4`, i.e. `(wd >> 2t) & 3`) is the `t`-th encoding, 0 past the
end. -/
theorem wordOfEncs_digit :
    ∀ l : List Nat, (∀ e ∈ l, e < 4) → ∀ t : Nat,
      wordOfEncs l / 4 ^ t % 4 = l.getD t 0 := by
  intro l
  induction l with
  | nil => intro _ t; simp [wordOfEncs]
  | cons e rest ih =>
    intro h t
    have he : e < 4 := h e (List.mem_cons_self e rest)
    cases t with
    | zero =>
      simp only [pow_zero, Nat.div_one, wordOfEncs, List.getD_cons_zero]
      omega
    | succ t' =>
      have hdiv : wordOfEncs (e :: rest) / 4 ^ (t' + 1) =
          wordOfEncs rest / 4 ^ t' := by
        show (e + 4 * wordOfEncs rest) / 4 ^ (t' + 1) = wordOfEncs rest / 4 ^ t'
        rw [pow_succ', ← Nat.div_div_eq_div_mul]
        congr 1
        omega
      rw [hdiv, List.getD_cons_succ]
      exact ih (fun y hy => h y (List.mem_cons_of_mem e hy)) t'

/-- Reading a list back off its own indices reproduces it. -/
theorem map_getD_range {α : Type} (l : List α) (d : α) :
    (List.range l.length).map (fun i => l.getD i d) = l := by
  apply List.ext_getElem
  · simp
  · intro i h1 h2
    simp only [List.getElem_map, List.getElem_range]
    exact List.getD_eq_getElem l d h2

/-- Flattening `n` consecutive 16-blocks of `g` is `g` over `16n`
indices. -/
theorem flatten_blocks_16 {α : Type} (g : Nat → α) :
    ∀ n : Nat,
      ((List.range n).map (fun j =>
        (List.range 16).map (fun t => g (16 * j + t)))).flatten
        = (List.range (16 * n)).map g := by
  intro n
  induction n with
  | zero => rfl
  | succ n ih =>
    have hr : List.range (n + 1) = List.range n ++ [n] := List.range_succ n
    rw [hr, List.map_append, List.flatten_append, ih]
    have h16 : 16 * (n + 1) = 16 * n + 16 := by ring
    rw [h16, List.range_add, List.map_append]
    congr 1

/-- Extracting block `r` of a flattened list of constant-length blocks. -/
theorem flatten_drop_take {α : Type} :
    ∀ (bs : List (List α)) (L r : Nat), (∀ b ∈ bs, b.length = L) →
      r < bs.length → (bs.flatten.drop (r * L)).take L = bs.getD r [] := by
  intro bs
  induction bs with
  | nil => intro L r _ hr; simp at hr
  | cons b rest ih =>
    intro L r hlen hr
    cases r with
    | zero =>
      simp only [Nat.zero_mul, List.drop_zero, List.flatten_cons,
        List.getD_cons_zero]
      rw [← hlen b (List.mem_cons_self b rest), List.take_left]
    | succ r' =>
      simp only [List.flatten_cons, List.getD_cons_succ]
      have hb : b.length = L := hlen b (List.mem_cons_self b rest)
      have hd : (b ++ rest.flatten).drop ((r' + 1) * L) =
          rest.flatten.drop (r' * L) := by
        have h1 : (r' + 1) * L = b.length + r' * L := by rw [hb]; ring
        rw [h1, ← List.drop_drop, List.drop_left]
      rw [hd]
      exact ih L r' (fun y hy => hlen y (List.mem_cons_of_mem b hy))
        (by simpa using hr)

/-- Decoding one packed row recovers the row (padding truncated). -/
theorem unpackRow_packRow (row : List Int) (k : Nat) (hrl : row.length = k)
    (ht : ∀ v ∈ row, v = -1 ∨ v = 0 ∨ v = 1) :
    unpackRow (packRow row k) k = row := by
  unfold unpackRow packRow
  rw [List.map_map]
  have hinner : ∀ j ∈ List.range (tiles_per_row k * 8),
      ((fun wd => (encsOfWord 16 wd).map decodeWeight) ∘ packWord row k) j
        = (List.range 16).map (fun t =>
            if 16 * j + t < k then row.getD (16 * j + t) 0 else 0) := by
    intro j _
    show (encsOfWord 16 (packWord row k j)).map decodeWeight = _
    unfold packWord
    rw [encsOfWord_wordOfEncs_of_length 16 _ (by simp) (by
      intro e he
      rw [List.mem_map] at he
      obtain ⟨t, _, rfl⟩ := he
      exact encodeWeight_lt_four _), List.map_map]
    apply List.map_congr_left
    intro t _
    show decodeWeight (encodeWeight
      (if 16 * j + t < k then row.getD (16 * j + t) 0 else 0)) = _
    apply decode_encode
    split
    · rename_i hlt
      by_cases hl : 16 * j + t < row.length
      · rw [List.getD_eq_getElem row 0 hl]
        exact ht _ (List.getElem_mem hl)
      · rw [List.getD_eq_default row 0 (by omega)]
        right; left; rfl
    · right; left; rfl
  rw [List.map_congr_left hinner,
    flatten_blocks_16 (fun i => if i < k then row.getD i 0 else 0)
      (tiles_per_row k * 8)]
  have hk : k ≤ 16 * (tiles_per_row k * 8) := by
    unfold tiles_per_row
    omega
  rw [← List.map_take, List.take_range, Nat.min_eq_left hk]
  have hfin : ∀ i ∈ List.range k,
      (if i < k then row.getD i 0 else 0) = row.getD i 0 := by
    intro i hi
    rw [List.mem_range] at hi
    rw [if_pos hi]
  rw [List.map_congr_left hfin, ← hrl, map_getD_range row 0]

/-- C4 — Pack/unpack round trip: packing an `M×K` ternary matrix into
128-column tiles of 8 32-bit words (2 bits per weight, `+1 → 01`,
`-1 → 10`, `0 → 00`, ragged last tile zero-padded, rows emitted
row-major/tile-major) and then decoding through the inverse table and
truncating every row back to `K` columns reproduces the matrix
exactly. -/
theorem pack_unpack_roundtrip (w : List (List Int)) (k : Nat)
    (hlen : ∀ row ∈ w, row.length = k)
    (htern : ∀ row ∈ w, ∀ v ∈ row, v = -1 ∨ v = 0 ∨ v = 1) :
    unpack_packed (export_packed w k) w.length k = w := by
  unfold unpack_packed export_packed
  have hblen : ∀ b ∈ w.map (fun row => packRow row k),
      b.length = tiles_per_row k * 8 := by
    intro b hb
    rw [List.mem_map] at hb
    obtain ⟨row, _, rfl⟩ := hb
    simp [packRow]
  have hstep : ∀ r ∈ List.range w.length,
      unpackRow (((w.map (fun row => packRow row k)).flatten.drop
        (r * (tiles_per_row k * 8))).take (tiles_per_row k * 8)) k
        = w.getD r [] := by
    intro r hr
    rw [List.mem_range] at hr
    have hr' : r < (w.map (fun row => packRow row k)).length := by simpa using hr
    rw [flatten_drop_take _ _ _ hblen hr', List.getD_eq_getElem _ _ hr',
      List.getElem_map]
    rw [unpackRow_packRow _ k (hlen _ (List.getElem_mem hr))
      (htern _ (List.getElem_mem hr))]
    exact (List.getD_eq_getElem w [] hr).symm
  rw [List.map_congr_left hstep, map_getD_range w []]

/-- Witness for C4 on a ragged 1×5 row (3 padded positions in the last
used word, 7 all-zero words). -/
theorem pack_unpack_roundtrip_witness :
    unpack_packed (export_packed [[1, -1, 0, 1, 1]] 5) 1 5 =
      [[(1 : Int), -1, 0, 1, 1]] :=
  pack_unpack_roundtrip [[1, -1, 0, 1, 1]] 5 (by decide) (by decide)

/-- C9 — The reserved pattern never appears: every packed word of a
ternary matrix fits in 32 bits, and each of its 2-bit fields (field `t`
is `wd / 4^t % 4`, i.e. `(wd >> 2t) & 3`) is `00`, `01` or `10`,
never `11`. -/
theorem packed_no_reserved (w : List (List Int)) (k : Nat)
    (_htern : ∀ row ∈ w, ∀ v ∈ row, v = -1 ∨ v = 0 ∨ v = 1) :
    ∀ wd ∈ export_packed w k, wd < 2 ^ 32 ∧ ∀ t : Nat, wd / 4 ^ t % 4 ≠ 3 := by
  intro wd hwd
  unfold export_packed at hwd
  rw [List.mem_flatten] at hwd
  obtain ⟨ws, hws, hwdin⟩ := hwd
  rw [List.mem_map] at hws
  obtain ⟨row, _, rfl⟩ := hws
  unfold packRow at hwdin
  rw [List.mem_map] at hwdin
  obtain ⟨j, _, rfl⟩ := hwdin
  unfold packWord
  have hl4 : ∀ e ∈ (List.range 16).map (fun t =>
      encodeWeight (if 16 * j + t < k then row.getD (16 * j + t) 0 else 0)),
      e < 4 := by
    intro e he
    rw [List.mem_map] at he
    obtain ⟨t, _, rfl⟩ := he
    exact encodeWeight_lt_four _
  constructor
  · have hlt := wordOfEncs_lt _ hl4
    simp only [List.length_map, List.length_range] at hlt
    omega
  · intro t
    rw [wordOfEncs_digit _ hl4 t]
    by_cases ht16 : t < 16
    · have htl : t < ((List.range 16).map (fun t =>
          encodeWeight (if 16 * j + t < k then row.getD (16 * j + t) 0
            else 0))).length := by
        simpa using ht16
      rw [List.getD_eq_getElem _ 0 htl, List.getElem_map, List.getElem_range]
      exact encodeWeight_ne_three _
    · rw [List.getD_eq_default _ 0 (by simpa using ht16)]
      omega

/-- Witness for C9: the packed stream of the 1×3 row `[1, -1, 0]` is
`[9, 0, …, 0]`; the field check at word 9, offset 2. -/
theorem packed_no_reserved_witness :
    (9 : Nat) ∈ export_packed [[1, -1, 0]] 3 ∧
    (9 : Nat) < 2 ^ 32 ∧ 9 / 4 ^ 1 % 4 ≠ 3 :=
  ⟨by decide,
   (packed_no_reserved [[1, -1, 0]] 3 (by decide) 9 (by decide)).1,
   fun h => ((packed_no_reserved [[1, -1, 0]] 3 (by decide) 9 (by decide)).2 1) h⟩

/-! ## Quantizer correctness -/

/-- Rounding never moves by more than one integer step. -/
theorem roundTiesEven_eq_floor_or_succ (x : ℚ) :
    roundTiesEven x = ⌊x⌋ ∨ roundTiesEven x = ⌊x⌋ + 1 := by
  unfold roundTiesEven
  split
  · left; rfl
  · split
    · right; rfl
    · split
      · left; rfl
      · right; rfl

/-- A clamped value rounds into the ternary set. -/
theorem roundTiesEven_mem (x : ℚ) (h1 : -1 ≤ x) (h2 : x ≤ 1) :
    roundTiesEven x = -1 ∨ roundTiesEven x = 0 ∨ roundTiesEven x = 1 := by
  have hfl : (-1 : ℤ) ≤ ⌊x⌋ := by
    rw [Int.le_floor]
    push_cast
    linarith
  have hfu : ⌊x⌋ ≤ 1 := by
    calc ⌊x⌋ ≤ ⌊(1 : ℚ)⌋ := Int.floor_mono h2
    _ = 1 := Int.floor_one
  by_cases hone : ⌊x⌋ = 1
  · have hx1 : x = 1 := by
      have hge : (1 : ℚ) ≤ x := by
        calc (1 : ℚ) = ((1 : ℤ) : ℚ) := by norm_num
        _ = ((⌊x⌋ : ℤ) : ℚ) := by rw [hone]
        _ ≤ x := Int.floor_le x
      linarith
    right; right
    subst hx1
    unfold roundTiesEven
    rw [Int.floor_one]
    norm_num
  · have := roundTiesEven_eq_floor_or_succ x
    omega

/-- The clamp used by the quantizer lands in `[-1, 1]`. -/
theorem clampQ_mem (x : ℚ) : -1 ≤ clampQ x (-1) 1 ∧ clampQ x (-1) 1 ≤ 1 := by
  unfold clampQ
  exact ⟨le_min (le_max_right x (-1)) (by norm_num), min_le_right _ _⟩

/-- An all-zero matrix has zero mean absolute value. -/
theorem alphaOf_eq_zero (w : List (List ℚ)) (hz : ∀ r ∈ w, ∀ v ∈ r, v = 0) :
    alphaOf w = 0 := by
  have habs : absSum w = 0 := by
    unfold absSum
    apply List.sum_eq_zero
    intro s hs
    rw [List.mem_map] at hs
    obtain ⟨r, hr, rfl⟩ := hs
    apply List.sum_eq_zero
    intro a ha
    rw [List.mem_map] at ha
    obtain ⟨v, hv, rfl⟩ := ha
    rw [hz r hr v hv]
    exact abs_zero
  unfold alphaOf
  rw [habs, zero_div]

/-- C3 — Quantizer correctness: ternary quantization returns the all-zero
matrix of the same shape when `mean(|W|) = 0`, and otherwise the
elementwise round-half-to-even of `clamp(W / mean(|W|), -1, 1)`;
consequently every element of the result is in `{-1, 0, +1}`, and an
all-zero input yields an all-zero output. -/
theorem ternary_quantize_spec (w : List (List ℚ)) :
    (alphaOf w = 0 → TernaryQuantize.forward w = zerosLike w) ∧
    (alphaOf w ≠ 0 → TernaryQuantize.forward w =
      w.map (fun r => r.map (fun x =>
        ((roundTiesEven (clampQ (x / alphaOf w) (-1) 1) : ℤ) : ℚ)))) ∧
    (∀ r ∈ TernaryQuantize.forward w, ∀ v ∈ r, v = -1 ∨ v = 0 ∨ v = 1) ∧
    ((∀ r ∈ w, ∀ v ∈ r, v = 0) → TernaryQuantize.forward w = zerosLike w) := by
  refine ⟨fun h0 => ?_, fun hn => ?_, ?_, fun hz => ?_⟩
  · unfold TernaryQuantize.forward
    rw [if_pos h0]
  · unfold TernaryQuantize.forward
    rw [if_neg hn]
  · intro r hr v hv
    unfold TernaryQuantize.forward at hr
    by_cases h0 : alphaOf w = 0
    · rw [if_pos h0] at hr
      unfold zerosLike at hr
      rw [List.mem_map] at hr
      obtain ⟨row, _, rfl⟩ := hr
      rw [List.mem_map] at hv
      obtain ⟨x, _, rfl⟩ := hv
      right; left; rfl
    · rw [if_neg h0] at hr
      rw [List.mem_map] at hr
      obtain ⟨row, _, rfl⟩ := hr
      rw [List.mem_map] at hv
      obtain ⟨x, _, rfl⟩ := hv
      have hcl := clampQ_mem (x / alphaOf w)
      have hm := roundTiesEven_mem (clampQ (x / alphaOf w) (-1) 1) hcl.1 hcl.2
      rcases hm with h | h | h <;> rw [h]
      · left; norm_num
      · right; left; norm_num
      · right; right; norm_num
  · unfold TernaryQuantize.forward
    rw [if_pos (alphaOf_eq_zero w hz)]

/-- Witness for C3: the degenerate all-zero 1×1 matrix (both the
`alpha = 0` and the all-zero clauses) and the matrix `[[1]]` (the
`alpha ≠ 0` clause). -/
theorem ternary_quantize_spec_witness :
    TernaryQuantize.forward [[(0 : ℚ)]] = zerosLike [[(0 : ℚ)]] ∧
    TernaryQuantize.forward [[(1 : ℚ)]] =
      [[(1 : ℚ)]].map (fun r => r.map (fun x =>
        ((roundTiesEven (clampQ (x / alphaOf [[(1 : ℚ)]]) (-1) 1) : ℤ) : ℚ))) ∧
    (∀ r ∈ TernaryQuantize.forward [[(0 : ℚ)]], ∀ v ∈ r,
      v = -1 ∨ v = 0 ∨ v = 1) :=
  ⟨(ternary_quantize_spec [[(0 : ℚ)]]).1 (by
      norm_num [alphaOf, absSum, numel]),
   (ternary_quantize_spec [[(1 : ℚ)]]).2.1 (by
      norm_num [alphaOf, absSum, numel]),
   (ternary_quantize_spec [[(0 : ℚ)]]).2.2.1⟩

end BitNet
